import Mathlib

/-!
Verification of the text-layout engine of src/app.js.

Strings are modelled as lists of characters, widths and coordinates as
rational numbers.  The glyph-metrics provider (font.widthOfTextAtSize) is an
arbitrary function from a text run and a font size to a width.

The two core components embedded here:
- breakTextIntoLines (src/app.js lines 44-72): greedy character-by-character
  line breaking with an accumulator loop.
- placeLines (src/app.js lines 163-179, the layout portion of generatePDF):
  per-line horizontal centering and vertical block centering around a fixed
  anchor.
-/

/-- Loop body of breakTextIntoLines (src/app.js lines 48-60).  State is the
committed lines accumulator and the current line buffer; the third list is the
remaining input.  Mirrors: testLine = currentLine + char, testWidth =
font.widthOfTextAtSize(testLine, fontSize), and the overflow test
testWidth > maxWidth AND currentLine.length > 0. -/
def breakTextIntoLinesGo (font : List Char → ℚ → ℚ) (fontSize maxWidth : ℚ) :
    List (List Char) → List Char → List Char → List (List Char) × List Char
  | lines, currentLine, [] => (lines, currentLine)
  | lines, currentLine, char :: rest =>
      let testLine := currentLine ++ [char]
      let testWidth := font testLine fontSize
      if testWidth > maxWidth ∧ currentLine.length > 0 then
        breakTextIntoLinesGo font fontSize maxWidth (lines ++ [currentLine]) [char] rest
      else
        breakTextIntoLinesGo font fontSize maxWidth lines testLine rest

/-- breakTextIntoLines (src/app.js lines 44-72): run the loop from an empty
accumulator and empty buffer, then push the final buffer when non-empty. -/
def breakTextIntoLines (text : List Char) (font : List Char → ℚ → ℚ)
    (fontSize maxWidth : ℚ) : List (List Char) :=
  let r := breakTextIntoLinesGo font fontSize maxWidth [] [] text
  if r.2.length > 0 then r.1 ++ [r.2] else r.1

/-- A line paired with its draw origin, as passed to page.drawText. -/
structure PlacedLine where
  line : List Char
  x : ℚ
  y : ℚ
deriving DecidableEq, Inhabited

/-- Block positioning from generatePDF (src/app.js lines 163-179):
lineHeight = fontSize * lineHeightMult, targetCenterY = pageHeight -
topMargin - fontSize / 2, totalTextHeight = (lines.length - 1) * lineHeight +
fontSize, startY = targetCenterY + totalTextHeight / 2 - fontSize, and per
line of index i: y = startY - i * lineHeight, x = (pageWidth - lineWidth) / 2
where lineWidth is that line measured at fontSize. -/
def placeLines (lines : List (List Char)) (font : List Char → ℚ → ℚ)
    (fontSize lineHeightMult pageWidth pageHeight topMargin : ℚ) : List PlacedLine :=
  let lineHeight := fontSize * lineHeightMult
  let targetCenterY := pageHeight - topMargin - fontSize / 2
  let totalTextHeight := ((lines.length : ℚ) - 1) * lineHeight + fontSize
  let startY := targetCenterY + totalTextHeight / 2 - fontSize
  lines.enum.map fun p =>
    let y := startY - (p.1 : ℚ) * lineHeight
    let lineWidth := font p.2 fontSize
    let x := (pageWidth - lineWidth) / 2
    { line := p.2, x := x, y := y }

/-! ### Accumulator-free reformulation of the line-breaking loop -/

/-- Accumulator-free version of the line-breaking loop: the committed lines
are emitted in place instead of being pushed onto an accumulator. -/
def breakAux (m : List Char → ℚ) (maxWidth : ℚ) :
    List Char → List Char → List (List Char)
  | currentLine, [] => if currentLine.length > 0 then [currentLine] else []
  | currentLine, char :: rest =>
      if m (currentLine ++ [char]) > maxWidth ∧ currentLine.length > 0 then
        currentLine :: breakAux m maxWidth [char] rest
      else
        breakAux m maxWidth (currentLine ++ [char]) rest

theorem breakTextIntoLinesGo_spec (font : List Char → ℚ → ℚ) (fontSize maxWidth : ℚ) :
    ∀ (rest : List Char) (lines : List (List Char)) (currentLine : List Char),
      (if (breakTextIntoLinesGo font fontSize maxWidth lines currentLine rest).2.length > 0 then
        (breakTextIntoLinesGo font fontSize maxWidth lines currentLine rest).1 ++
          [(breakTextIntoLinesGo font fontSize maxWidth lines currentLine rest).2]
      else (breakTextIntoLinesGo font fontSize maxWidth lines currentLine rest).1)
      = lines ++ breakAux (fun t => font t fontSize) maxWidth currentLine rest := by
  intro rest
  induction rest with
  | nil =>
      intro lines currentLine
      simp only [breakTextIntoLinesGo, breakAux]
      split
      · simp
      · simp
  | cons c t ih =>
      intro lines currentLine
      simp only [breakTextIntoLinesGo, breakAux]
      by_cases h : font (currentLine ++ [c]) fontSize > maxWidth ∧ currentLine.length > 0
      · rw [if_pos h, if_pos h, ih]
        simp
      · rw [if_neg h, if_neg h, ih]

/-- Bridge: breakTextIntoLines is the accumulator-free loop started on the
whole input with an empty buffer. -/
theorem breakTextIntoLines_eq_breakAux (text : List Char) (font : List Char → ℚ → ℚ)
    (fontSize maxWidth : ℚ) :
    breakTextIntoLines text font fontSize maxWidth
      = breakAux (fun t => font t fontSize) maxWidth [] text := by
  have h := breakTextIntoLinesGo_spec font fontSize maxWidth text [] []
  simpa [breakTextIntoLines] using h

theorem breakAux_flatten (m : List Char → ℚ) (maxWidth : ℚ) :
    ∀ (rest currentLine : List Char),
      (breakAux m maxWidth currentLine rest).flatten = currentLine ++ rest := by
  intro rest
  induction rest with
  | nil =>
      intro currentLine
      simp only [breakAux]
      split
      · simp
      · rename_i h
        have : currentLine = [] := by
          cases currentLine with
          | nil => rfl
          | cons a l => simp at h
        simp [this]
  | cons c t ih =>
      intro currentLine
      simp only [breakAux]
      split
      · simp [ih]
      · simp [ih]

/-- Stepping over the first character of a line never commits anything: the
overflow test requires a non-empty buffer. -/
theorem breakAux_nil_cons (m : List Char → ℚ) (maxWidth : ℚ) (c : Char) (t : List Char) :
    breakAux m maxWidth [] (c :: t) = breakAux m maxWidth [c] t := by
  simp [breakAux]

theorem breakAux_ne_nil (m : List Char → ℚ) (maxWidth : ℚ) :
    ∀ (rest currentLine : List Char), currentLine ≠ [] →
      breakAux m maxWidth currentLine rest ≠ [] := by
  intro rest
  induction rest with
  | nil =>
      intro currentLine h
      simp [breakAux, List.length_pos.mpr h]
  | cons c t ih =>
      intro currentLine h
      simp only [breakAux]
      split
      · simp
      · exact ih (currentLine ++ [c]) (by simp)

theorem breakAux_mem_ne_nil (m : List Char → ℚ) (maxWidth : ℚ) :
    ∀ (rest currentLine : List Char) (l : List Char),
      l ∈ breakAux m maxWidth currentLine rest → l ≠ [] := by
  intro rest
  induction rest with
  | nil =>
      intro currentLine l hl
      simp only [breakAux] at hl
      split at hl
      · rename_i h
        simp only [List.mem_singleton] at hl
        subst hl
        exact List.length_pos.mp h
      · simp at hl
  | cons c t ih =>
      intro currentLine l hl
      simp only [breakAux] at hl
      split at hl
      · rename_i h
        rcases List.mem_cons.mp hl with h1 | h1
        · subst h1
          exact List.length_pos.mp h.2
        · exact ih [c] l h1
      · exact ih (currentLine ++ [c]) l hl

/-! ### Concrete measure functions used in witnesses -/

/-- Simple measure for witnesses: the width of a run is its character count,
independent of font size. -/
def lenFont (s : List Char) (_fs : ℚ) : ℚ := s.length

/-! ### Claim C1: concatenation invariant -/

/-- Claim C1: for every non-empty input string, concatenating the lines
returned by breakTextIntoLines in output order yields exactly the input:
no character is dropped, added, or reordered. -/
theorem breakTextIntoLines_flatten (s : List Char) (font : List Char → ℚ → ℚ)
    (fontSize maxWidth : ℚ) (_hs : s ≠ []) :
    (breakTextIntoLines s font fontSize maxWidth).flatten = s := by
  rw [breakTextIntoLines_eq_breakAux]
  simpa using breakAux_flatten (fun t => font t fontSize) maxWidth s []

/-- Witness for claim C1 at a concrete input. -/
theorem breakTextIntoLines_flatten_witness :
    (breakTextIntoLines ['a', 'b'] lenFont 12 1).flatten = ['a', 'b'] :=
  breakTextIntoLines_flatten ['a', 'b'] lenFont 12 1 (by decide)

/-! ### Claim C2: non-empty output, non-empty lines -/

/-- Claim C2: for every non-empty input string, breakTextIntoLines returns a
non-empty sequence of lines, and every output line is a non-empty string. -/
theorem breakTextIntoLines_lines_nonempty (s : List Char) (font : List Char → ℚ → ℚ)
    (fontSize maxWidth : ℚ) (hs : s ≠ []) :
    breakTextIntoLines s font fontSize maxWidth ≠ []
      ∧ ∀ l ∈ breakTextIntoLines s font fontSize maxWidth, l ≠ [] := by
  rw [breakTextIntoLines_eq_breakAux]
  obtain ⟨c, t, rfl⟩ := List.exists_cons_of_ne_nil hs
  rw [breakAux_nil_cons]
  exact ⟨breakAux_ne_nil _ maxWidth t [c] (by simp),
    fun l hl => breakAux_mem_ne_nil _ maxWidth t [c] l hl⟩

/-- Witness for claim C2 at a concrete input. -/
theorem breakTextIntoLines_lines_nonempty_witness :
    breakTextIntoLines ['a', 'b'] lenFont 12 1 ≠ [] :=
  (breakTextIntoLines_lines_nonempty ['a', 'b'] lenFont 12 1 (by decide)).1

/-! ### Claim C9: degenerate geometry parameters -/

/-- Claim C9 counterexample: the source performs no validation of maxWidth or
fontSize and produces no InvalidParameter failure value.  At maxWidth = -1 and
fontSize = -1 the line breaker returns an ordinary successful result. -/
theorem breakTextIntoLines_invalid_param_cex :
    breakTextIntoLines ['a'] lenFont (-1) (-1) = [['a']] := by decide

/-- Claim C9 (amended): for maxWidth less than or equal to 0 or fontSize less
than or equal to 0 the engine does not fail at all: breakTextIntoLines is a
total single-pass computation that terminates normally, performs no division
by the degenerate parameters, and still returns a line sequence whose
concatenation is exactly the input. -/
theorem breakTextIntoLines_degenerate_no_failure (s : List Char)
    (font : List Char → ℚ → ℚ) (fontSize maxWidth : ℚ)
    (_h : maxWidth ≤ 0 ∨ fontSize ≤ 0) :
    (breakTextIntoLines s font fontSize maxWidth).flatten = s := by
  rw [breakTextIntoLines_eq_breakAux]
  simpa using breakAux_flatten (fun t => font t fontSize) maxWidth s []

/-- Witness for the amended claim C9 at a concrete degenerate input. -/
theorem breakTextIntoLines_degenerate_no_failure_witness :
    (breakTextIntoLines ['a', 'b'] lenFont 12 (-1)).flatten = ['a', 'b'] :=
  breakTextIntoLines_degenerate_no_failure ['a', 'b'] lenFont 12 (-1)
    (Or.inl (by norm_num))

/-! ### Claim C10: non-positive maxWidth gives one line per character -/

theorem breakAux_length_of_nonpos (m : List Char → ℚ) (maxWidth : ℚ)
    (hW : maxWidth ≤ 0) (hm : ∀ t, t ≠ [] → 0 < m t) :
    ∀ (rest currentLine : List Char), currentLine ≠ [] →
      (breakAux m maxWidth currentLine rest).length = 1 + rest.length := by
  intro rest
  induction rest with
  | nil =>
      intro currentLine h
      simp [breakAux, List.length_pos.mpr h]
  | cons c t ih =>
      intro currentLine h
      have hover : m (currentLine ++ [c]) > maxWidth ∧ currentLine.length > 0 :=
        ⟨lt_of_le_of_lt hW (hm (currentLine ++ [c]) (by simp)), List.length_pos.mpr h⟩
      simp only [breakAux, if_pos hover, List.length_cons, ih [c] (by simp)]
      omega

/-- Claim C10: for every maxWidth less than or equal to 0 and every non-empty
input, breakTextIntoLines terminates normally in one pass (it is a total
structurally recursive function), and when every measured width of a
non-empty run is strictly positive it returns exactly one line per input
character. -/
theorem breakTextIntoLines_nonpos_width_singletons (s : List Char)
    (font : List Char → ℚ → ℚ) (fontSize maxWidth : ℚ)
    (hW : maxWidth ≤ 0) (hm : ∀ t, t ≠ [] → 0 < font t fontSize) (hs : s ≠ []) :
    (breakTextIntoLines s font fontSize maxWidth).length = s.length := by
  rw [breakTextIntoLines_eq_breakAux]
  obtain ⟨c, t, rfl⟩ := List.exists_cons_of_ne_nil hs
  rw [breakAux_nil_cons]
  rw [breakAux_length_of_nonpos (fun u => font u fontSize) maxWidth hW hm t [c] (by simp)]
  simp [Nat.add_comm]

/-- Witness for claim C10 at a concrete input with maxWidth = 0. -/
theorem breakTextIntoLines_nonpos_width_singletons_witness :
    (breakTextIntoLines ['a', 'b'] lenFont 12 0).length = (['a', 'b'] : List Char).length :=
  breakTextIntoLines_nonpos_width_singletons ['a', 'b'] lenFont 12 0 le_rfl
    (fun t ht => by
      simp only [lenFont]
      exact_mod_cast List.length_pos.mpr ht)
    (by decide)

/-! ### Block positioner lemmas -/

theorem placeLines_length (lines : List (List Char)) (font : List Char → ℚ → ℚ)
    (fontSize lineHeightMult pageWidth pageHeight topMargin : ℚ) :
    (placeLines lines font fontSize lineHeightMult pageWidth pageHeight topMargin).length
      = lines.length := by
  simp [placeLines]

theorem placeLines_get_y (lines : List (List Char)) (font : List Char → ℚ → ℚ)
    (fontSize lineHeightMult pageWidth pageHeight topMargin : ℚ) (i : ℕ)
    (h : i < (placeLines lines font fontSize lineHeightMult pageWidth pageHeight topMargin).length) :
    ((placeLines lines font fontSize lineHeightMult pageWidth pageHeight topMargin).get ⟨i, h⟩).y
      = (pageHeight - topMargin - fontSize / 2)
        + (((lines.length : ℚ) - 1) * (fontSize * lineHeightMult) + fontSize) / 2
        - fontSize - (i : ℚ) * (fontSize * lineHeightMult) := by
  have hi : i < lines.enum.length := by
    simpa [placeLines] using h
  simp only [placeLines]
  rw [List.get_eq_getElem, List.getElem_map, List.getElem_enum]

/-! ### Claim C5: horizontal centering symmetry -/

/-- Claim C5: every placed line has x computed as (pageWidth - lineWidth) / 2
from the width of that line itself, hence x + lineWidth / 2 = pageWidth / 2
exactly, independently for each line. -/
theorem placeLines_centered (lines : List (List Char)) (font : List Char → ℚ → ℚ)
    (fontSize lineHeightMult pageWidth pageHeight topMargin : ℚ) (p : PlacedLine)
    (hp : p ∈ placeLines lines font fontSize lineHeightMult pageWidth pageHeight topMargin) :
    p.x + font p.line fontSize / 2 = pageWidth / 2 := by
  simp only [placeLines, List.mem_map] at hp
  obtain ⟨a, _, rfl⟩ := hp
  simp only []
  ring

/-- Concrete evaluation of the positioner on a single line, used by the
witnesses below: with fontSize 120, multiplier 1, page 501 x 800 and top
margin 180 the single line of width 1 lands at x = 250, y = 500. -/
theorem placeLines_single_concrete :
    placeLines [['a']] lenFont 120 1 501 800 180 = [⟨['a'], 250, 500⟩] := by
  simp only [placeLines, List.enum, List.enumFrom, List.map, lenFont]
  norm_num

/-- Witness for claim C5 at a concrete placed line. -/
theorem placeLines_centered_witness :
    (⟨['a'], 250, 500⟩ : PlacedLine).x
        + lenFont (⟨['a'], 250, 500⟩ : PlacedLine).line 120 / 2 = 501 / 2 :=
  placeLines_centered [['a']] lenFont 120 1 501 800 180 ⟨['a'], 250, 500⟩
    (by rw [placeLines_single_concrete]; exact List.mem_singleton.mpr rfl)

/-! ### Claim C8: one placed line per input line, in order -/

/-- Claim C8: the positioner produces exactly one placed triple per line
breaker output line, in the same order, with no merging, splitting or
reordering, and the placed sequence length equals the line breaker output
length. -/
theorem placeLines_one_triple_per_line (name : List Char) (font : List Char → ℚ → ℚ)
    (fontSize maxWidth lineHeightMult pageWidth pageHeight topMargin : ℚ) :
    (placeLines (breakTextIntoLines name font fontSize maxWidth) font fontSize
        lineHeightMult pageWidth pageHeight topMargin).map PlacedLine.line
      = breakTextIntoLines name font fontSize maxWidth
    ∧ (placeLines (breakTextIntoLines name font fontSize maxWidth) font fontSize
        lineHeightMult pageWidth pageHeight topMargin).length
      = (breakTextIntoLines name font fontSize maxWidth).length := by
  constructor
  · simp only [placeLines, List.map_map, Function.comp_def]
    exact List.enum_map_snd _
  · simp [placeLines]

/-! ### Claim C6: vertical anchor stability -/

/-- Claim C6: with targetCenterY = pageHeight - topMargin - fontSize / 2, the
midpoint of (firstLineY + fontSize) and lastLineY of the placed block equals
targetCenterY for every line count, and for a single-line result the vertical
center y + fontSize / 2 of that line equals targetCenterY. -/
theorem placeLines_vertical_anchor (lines : List (List Char)) (font : List Char → ℚ → ℚ)
    (fontSize lineHeightMult pageWidth pageHeight topMargin : ℚ) (p q : PlacedLine)
    (hp : (placeLines lines font fontSize lineHeightMult pageWidth pageHeight topMargin).head?
        = some p)
    (hq : (placeLines lines font fontSize lineHeightMult pageWidth pageHeight topMargin).getLast?
        = some q) :
    (p.y + fontSize + q.y) / 2 = pageHeight - topMargin - fontSize / 2
      ∧ (lines.length = 1 →
          p.y + fontSize / 2 = pageHeight - topMargin - fontSize / 2) := by
  have hpos : 0 < (placeLines lines font fontSize lineHeightMult pageWidth pageHeight
      topMargin).length := by
    cases hout : placeLines lines font fontSize lineHeightMult pageWidth pageHeight topMargin with
    | nil => rw [hout] at hp; simp at hp
    | cons a t => simp [hout]
  have hlen := placeLines_length lines font fontSize lineHeightMult pageWidth pageHeight topMargin
  have hn1 : 1 ≤ lines.length := by omega
  have hp0 : p = (placeLines lines font fontSize lineHeightMult pageWidth pageHeight
      topMargin).get ⟨0, hpos⟩ := by
    rw [List.get_eq_getElem]
    rw [List.head?_eq_getElem?] at hp
    rw [List.getElem?_eq_getElem hpos] at hp
    injection hp with h2
    exact h2.symm
  have hq0 : q = (placeLines lines font fontSize lineHeightMult pageWidth pageHeight
      topMargin).get ⟨(placeLines lines font fontSize lineHeightMult pageWidth pageHeight
        topMargin).length - 1, by omega⟩ := by
    rw [List.get_eq_getElem]
    rw [List.getLast?_eq_getElem?] at hq
    rw [List.getElem?_eq_getElem (by omega)] at hq
    injection hq with h2
    exact h2.symm
  rw [hp0, hq0, placeLines_get_y, placeLines_get_y]
  have hcast : (((placeLines lines font fontSize lineHeightMult pageWidth pageHeight
      topMargin).length - 1 : ℕ) : ℚ) = (lines.length : ℚ) - 1 := by
    rw [hlen, Nat.cast_sub hn1]
    simp
  rw [hcast]
  constructor
  · push_cast
    ring
  · intro h1
    rw [h1]
    push_cast
    ring

/-- Witness for claim C6 at a concrete single-line input. -/
theorem placeLines_vertical_anchor_witness :
    ((⟨['a'], 250, 500⟩ : PlacedLine).y + 120 + (⟨['a'], 250, 500⟩ : PlacedLine).y) / 2
        = 800 - 180 - 120 / 2
      ∧ ([['a']].length = 1 →
          (⟨['a'], 250, 500⟩ : PlacedLine).y + 120 / 2 = 800 - 180 - 120 / 2) :=
  placeLines_vertical_anchor [['a']] lenFont 120 1 501 800 180
    ⟨['a'], 250, 500⟩ ⟨['a'], 250, 500⟩
    (by rw [placeLines_single_concrete]; rfl)
    (by rw [placeLines_single_concrete]; rfl)

/-! ### Claim C7: the overflow comparison is strict -/

/-- Claim C7: when the tentative buffer width is exactly equal to maxWidth,
the loop accepts the character onto the current line (the else branch) and
does not commit the current line. -/
theorem breakTextIntoLinesGo_tie_accepts (font : List Char → ℚ → ℚ)
    (fontSize maxWidth : ℚ) (lines : List (List Char)) (currentLine : List Char)
    (char : Char) (rest : List Char)
    (h : font (currentLine ++ [char]) fontSize = maxWidth) :
    breakTextIntoLinesGo font fontSize maxWidth lines currentLine (char :: rest)
      = breakTextIntoLinesGo font fontSize maxWidth lines (currentLine ++ [char]) rest := by
  have hne : ¬(font (currentLine ++ [char]) fontSize > maxWidth ∧ currentLine.length > 0) := by
    rw [h]
    intro hc
    exact lt_irrefl maxWidth hc.1
  simp only [breakTextIntoLinesGo, if_neg hne]

/-- Witness for claim C7 at a concrete tie input. -/
theorem breakTextIntoLinesGo_tie_accepts_witness :
    breakTextIntoLinesGo lenFont 12 2 [['x']] ['a'] ['b', 'c']
      = breakTextIntoLinesGo lenFont 12 2 [['x']] (['a'] ++ ['b']) ['c'] :=
  breakTextIntoLinesGo_tie_accepts lenFont 12 2 [['x']] ['a'] 'b' ['c'] (by decide)

/-! ### Claim C3: an over-wide character sits alone on its line -/

theorem breakAux_wide_alone (m : List Char → ℚ) (maxWidth : ℚ) (ch : Char)
    (hmono : ∀ w, ch ∈ w → m [ch] ≤ m w) (hwide : m [ch] > maxWidth) :
    ∀ (rest currentLine : List Char), (ch ∈ currentLine → currentLine = [ch]) →
      ∀ l ∈ breakAux m maxWidth currentLine rest, ch ∈ l → l = [ch] := by
  intro rest
  induction rest with
  | nil =>
      intro currentLine hcur l hl hch
      simp only [breakAux] at hl
      split at hl
      · simp only [List.mem_singleton] at hl
        subst hl
        exact hcur hch
      · simp at hl
  | cons c t ih =>
      intro currentLine hcur l hl hch
      simp only [breakAux] at hl
      split at hl
      · rcases List.mem_cons.mp hl with h1 | h1
        · subst h1
          exact hcur hch
        · refine ih [c] ?_ l h1 hch
          intro hc
          simp only [List.mem_singleton] at hc
          rw [hc]
      · rename_i hacc
        refine ih (currentLine ++ [c]) ?_ l hl hch
        intro hmem
        by_cases hnil : currentLine = []
        · subst hnil
          simp only [List.nil_append, List.mem_singleton] at hmem
          simp [hmem]
        · exact absurd ⟨lt_of_lt_of_le hwide (hmono _ hmem), List.length_pos.mpr hnil⟩ hacc

/-- Claim C3 (amended): when the measure is monotone in the stronger sense
that every run containing the character is at least as wide as the character
alone (true of additive advance-width metrics, but not implied by
monotonicity under appending alone), a character wider than maxWidth that
occurs in the input appears alone as a full output line, every output line
containing it is exactly that character, and no error is raised (the breaker
is a total function). -/
theorem breakTextIntoLines_wide_char_alone (s : List Char) (font : List Char → ℚ → ℚ)
    (fontSize maxWidth : ℚ) (ch : Char)
    (hmono : ∀ w, ch ∈ w → font [ch] fontSize ≤ font w fontSize)
    (hwide : font [ch] fontSize > maxWidth) (hs : ch ∈ s) :
    [ch] ∈ breakTextIntoLines s font fontSize maxWidth
      ∧ ∀ l ∈ breakTextIntoLines s font fontSize maxWidth, ch ∈ l → l = [ch] := by
  have hall : ∀ l ∈ breakTextIntoLines s font fontSize maxWidth, ch ∈ l → l = [ch] := by
    rw [breakTextIntoLines_eq_breakAux]
    exact breakAux_wide_alone (fun t => font t fontSize) maxWidth ch hmono hwide s [] (by simp)
  refine ⟨?_, hall⟩
  have hflat : (breakTextIntoLines s font fontSize maxWidth).flatten = s := by
    rw [breakTextIntoLines_eq_breakAux]
    simpa using breakAux_flatten (fun t => font t fontSize) maxWidth s []
  have hmem : ch ∈ (breakTextIntoLines s font fontSize maxWidth).flatten := by
    rw [hflat]
    exact hs
  obtain ⟨l, hl, hchl⟩ := List.mem_flatten.mp hmem
  rw [← hall l hl hchl]
  exact hl

/-- Measure for the claim C3 witness: any run containing the over-wide
character b measures 100, any other run measures its length. -/
def wideFont (s : List Char) (_fs : ℚ) : ℚ := if 'b' ∈ s then 100 else s.length

/-- Witness for the amended claim C3 at a concrete input. -/
theorem breakTextIntoLines_wide_char_alone_witness :
    [('b' : Char)] ∈ breakTextIntoLines ['a', 'b', 'c'] wideFont 12 50 :=
  (breakTextIntoLines_wide_char_alone ['a', 'b', 'c'] wideFont 12 50 'b'
    (fun w hw => by simp [wideFont, hw])
    (by norm_num [wideFont])
    (by decide)).1

/-! Measures monotone under appending, built as the running maximum of a raw
width table over all initial segments of the run. -/

def initsMaxMeasure (raw : List Char → ℚ) (s : List Char) : ℚ :=
  (s.inits.map raw).foldr max 0

theorem foldr_max_nonneg (l : List ℚ) : 0 ≤ l.foldr max 0 := by
  induction l with
  | nil => exact le_refl 0
  | cons a t ih => exact le_trans ih (le_max_right a _)

theorem le_foldr_max (l : List ℚ) (a : ℚ) (h : a ∈ l) : a ≤ l.foldr max 0 := by
  induction l with
  | nil => simp at h
  | cons b t ih =>
      rcases List.mem_cons.mp h with h1 | h1
      · subst h1
        exact le_max_left a _
      · exact le_trans (ih h1) (le_max_right b _)

theorem foldr_max_le_foldr_max (l₁ l₂ : List ℚ) (h : l₁ ⊆ l₂) :
    l₁.foldr max 0 ≤ l₂.foldr max 0 := by
  induction l₁ with
  | nil => exact foldr_max_nonneg l₂
  | cons a t ih =>
      rw [List.foldr_cons]
      exact max_le (le_foldr_max l₂ a (h (List.mem_cons_self a t)))
        (ih fun x hx => h (List.mem_cons_of_mem a hx))

theorem initsMaxMeasure_mono (raw : List Char → ℚ) (s t : List Char) :
    initsMaxMeasure raw s ≤ initsMaxMeasure raw (s ++ t) := by
  apply foldr_max_le_foldr_max
  intro x hx
  simp only [List.mem_map] at hx ⊢
  obtain ⟨p, hp, rfl⟩ := hx
  refine ⟨p, ?_, rfl⟩
  rw [List.mem_inits] at hp ⊢
  obtain ⟨u, rfl⟩ := hp
  exact ⟨u ++ t, by simp⟩

/-- Raw width table for the claim C3 counterexample. -/
def rawWide : List Char → ℚ
  | ['a'] => 5
  | ['a', 'b'] => 10
  | ['b'] => 100
  | _ => 0

/-- Counterexample measure for claim C3: deterministic and monotone
non-decreasing under appending, yet the run a-b is narrower than the single
character b on its own. -/
def cexWideFont (s : List Char) (_fs : ℚ) : ℚ := initsMaxMeasure rawWide s

/-- Claim C3 counterexample: cexWideFont satisfies the stated precondition
(deterministic, monotone non-decreasing under appending), the character b
alone is wider than maxWidth = 50 and occurs in the input a-b, yet the line
breaker outputs the single line a-b: the over-wide character is not placed
alone on its own line, so the claim as stated is false. -/
theorem breakTextIntoLines_wide_char_alone_cex :
    (∀ (u v : List Char) (fs : ℚ), cexWideFont u fs ≤ cexWideFont (u ++ v) fs)
      ∧ cexWideFont ['b'] 12 > 50
      ∧ 'b' ∈ (['a', 'b'] : List Char)
      ∧ breakTextIntoLines ['a', 'b'] cexWideFont 12 50 = [['a', 'b']]
      ∧ [('b' : Char)] ∉ breakTextIntoLines ['a', 'b'] cexWideFont 12 50 := by
  refine ⟨fun u v fs => initsMaxMeasure_mono rawWide u v, ?_, by decide, ?_, ?_⟩
  · decide
  · decide
  · decide

/-! ### Claim C4: line count versus maxWidth -/

/-- First committed line of the loop together with the input remaining for
the following lines, starting from a given buffer. -/
def splitFirst (m : List Char → ℚ) (maxWidth : ℚ) :
    List Char → List Char → List Char × List Char
  | currentLine, [] => (currentLine, [])
  | currentLine, char :: rest =>
      if m (currentLine ++ [char]) > maxWidth ∧ currentLine.length > 0 then
        (currentLine, char :: rest)
      else
        splitFirst m maxWidth (currentLine ++ [char]) rest

theorem splitFirst_snd_suffix (m : List Char → ℚ) (maxWidth : ℚ) :
    ∀ (rest currentLine : List Char),
      (splitFirst m maxWidth currentLine rest).2 <:+ rest := by
  intro rest
  induction rest with
  | nil =>
      intro currentLine
      simp [splitFirst]
  | cons c t ih =>
      intro currentLine
      simp only [splitFirst]
      split
      · exact List.suffix_refl _
      · exact (ih (currentLine ++ [c])).trans (List.suffix_cons c t)

/-- The loop output starting from a non-empty buffer is its first committed
line followed by the output of a fresh loop on the remaining input. -/
theorem breakAux_eq_splitFirst (m : List Char → ℚ) (maxWidth : ℚ) :
    ∀ (rest currentLine : List Char), currentLine ≠ [] →
      breakAux m maxWidth currentLine rest
        = (splitFirst m maxWidth currentLine rest).1
            :: breakAux m maxWidth [] (splitFirst m maxWidth currentLine rest).2 := by
  intro rest
  induction rest with
  | nil =>
      intro currentLine h
      simp [breakAux, splitFirst, List.length_pos.mpr h]
  | cons c t ih =>
      intro currentLine h
      by_cases hcond : m (currentLine ++ [c]) > maxWidth ∧ currentLine.length > 0
      · have hs : splitFirst m maxWidth currentLine (c :: t) = (currentLine, c :: t) := by
          simp only [splitFirst, if_pos hcond]
        rw [hs, breakAux_nil_cons]
        simp only [breakAux, if_pos hcond]
      · have hs : splitFirst m maxWidth currentLine (c :: t)
            = splitFirst m maxWidth (currentLine ++ [c]) t := by
          simp only [splitFirst, if_neg hcond]
        rw [hs]
        have hb : breakAux m maxWidth currentLine (c :: t)
            = breakAux m maxWidth (currentLine ++ [c]) t := by
          simp only [breakAux, if_neg hcond]
        rw [hb]
        exact ih (currentLine ++ [c]) (by simp)

theorem breakAux_length_cons (m : List Char → ℚ) (maxWidth : ℚ) (c : Char) (t : List Char) :
    (breakAux m maxWidth [] (c :: t)).length
      = 1 + (breakAux m maxWidth [] (splitFirst m maxWidth [c] t).2).length := by
  rw [breakAux_nil_cons, breakAux_eq_splitFirst m maxWidth t [c] (by simp)]
  simp [Nat.add_comm]

/-- Key comparison: run the loop at two widths W1 less than or equal to W2,
with the wider run lagging behind inside the current line of the narrower
run (the buffer plus remaining input of the wider run form a suffix of those
of the narrower run).  If the measure is monotone under prepending, then
after the first committed line the remaining input of the wider run is a
suffix of the remaining input of the narrower run. -/
theorem splitFirst_snd_suffix_mono (m : List Char → ℚ)
    (hm : ∀ u v, m v ≤ m (u ++ v)) (W1 W2 : ℚ) (hW : W1 ≤ W2) :
    ∀ (rest currentLine currentLine2 rest2 : List Char),
      currentLine2 ≠ [] →
      currentLine2 ++ rest2 <:+ currentLine ++ rest →
      rest2 <:+ rest →
      (splitFirst m W2 currentLine2 rest2).2 <:+ (splitFirst m W1 currentLine rest).2 := by
  intro rest
  induction rest with
  | nil =>
      intro cur cur2 rest2 h2 hsub hr
      have hr0 : rest2 = [] := List.suffix_nil.mp hr
      subst hr0
      simp [splitFirst]
  | cons c t ih =>
      intro cur cur2 rest2 h2 hsub hr
      rcases List.suffix_cons_iff.mp hr with hr2 | hr2
      · -- lockstep: the wider run reads the same character next
        subst hr2
        have hcc : cur2 <:+ cur := by
          obtain ⟨u, hu⟩ := hsub
          have hu2 : (u ++ cur2) ++ (c :: t) = cur ++ (c :: t) := by
            simpa [List.append_assoc] using hu
          exact ⟨u, List.append_cancel_right hu2⟩
        obtain ⟨u, rfl⟩ := hcc
        by_cases ho2 : m (cur2 ++ [c]) > W2 ∧ cur2.length > 0
        · have ho1 : m ((u ++ cur2) ++ [c]) > W1 ∧ (u ++ cur2).length > 0 := by
            constructor
            · calc W1 ≤ W2 := hW
                _ < m (cur2 ++ [c]) := ho2.1
                _ ≤ m (u ++ (cur2 ++ [c])) := hm u _
                _ = m ((u ++ cur2) ++ [c]) := by rw [List.append_assoc]
            · have := List.length_pos.mpr h2
              simp only [List.length_append]
              omega
          have e2 : splitFirst m W2 cur2 (c :: t) = (cur2, c :: t) := by
            simp only [splitFirst, if_pos ho2]
          have e1 : splitFirst m W1 (u ++ cur2) (c :: t) = (u ++ cur2, c :: t) := by
            simp only [splitFirst, if_pos ho1]
          rw [e1, e2]
        · have e2 : splitFirst m W2 cur2 (c :: t)
              = splitFirst m W2 (cur2 ++ [c]) t := by
            simp only [splitFirst, if_neg ho2]
          rw [e2]
          by_cases ho1 : m ((u ++ cur2) ++ [c]) > W1 ∧ (u ++ cur2).length > 0
          · have e1 : splitFirst m W1 (u ++ cur2) (c :: t) = (u ++ cur2, c :: t) := by
              simp only [splitFirst, if_pos ho1]
            rw [e1]
            exact (splitFirst_snd_suffix m W2 t (cur2 ++ [c])).trans (List.suffix_cons c t)
          · have e1 : splitFirst m W1 (u ++ cur2) (c :: t)
                = splitFirst m W1 ((u ++ cur2) ++ [c]) t := by
              simp only [splitFirst, if_neg ho1]
            rw [e1]
            refine ih ((u ++ cur2) ++ [c]) (cur2 ++ [c]) t (by simp) ?_ (List.suffix_refl t)
            exact ⟨u, by simp [List.append_assoc]⟩
      · -- the narrower run is still catching up: step it alone
        by_cases ho1 : m (cur ++ [c]) > W1 ∧ cur.length > 0
        · have e1 : splitFirst m W1 cur (c :: t) = (cur, c :: t) := by
            simp only [splitFirst, if_pos ho1]
          rw [e1]
          exact ((splitFirst_snd_suffix m W2 rest2 cur2).trans hr2).trans (List.suffix_cons c t)
        · have e1 : splitFirst m W1 cur (c :: t)
              = splitFirst m W1 (cur ++ [c]) t := by
            simp only [splitFirst, if_neg ho1]
          rw [e1]
          refine ih (cur ++ [c]) cur2 rest2 h2 ?_ hr2
          simpa [List.append_assoc] using hsub

theorem breakAux_length_antitone (m : List Char → ℚ)
    (hm : ∀ u v, m v ≤ m (u ++ v)) (W1 W2 : ℚ) (hW : W1 ≤ W2) :
    ∀ (n : ℕ) (s s2 : List Char), s.length ≤ n → s2 <:+ s →
      (breakAux m W2 [] s2).length ≤ (breakAux m W1 [] s).length := by
  intro n
  induction n with
  | zero =>
      intro s s2 hn hsub
      have hs : s = [] := List.eq_nil_of_length_eq_zero (Nat.le_zero.mp hn)
      subst hs
      have hs2 : s2 = [] := List.suffix_nil.mp hsub
      subst hs2
      simp [breakAux]
  | succ n ih =>
      intro s s2 hn hsub
      cases s2 with
      | nil =>
          simp [breakAux]
      | cons c2 t2 =>
          have hsne : s ≠ [] := by
            intro h
            subst h
            exact List.cons_ne_nil c2 t2 (List.suffix_nil.mp hsub)
          obtain ⟨c, t, rfl⟩ := List.exists_cons_of_ne_nil hsne
          rw [breakAux_length_cons m W1 c t, breakAux_length_cons m W2 c2 t2]
          have ht2 : t2 <:+ t := by
            rcases List.suffix_cons_iff.mp hsub with h1 | h1
            · injection h1 with e1 e2
              rw [e2]
            · exact (List.suffix_cons c2 t2).trans h1
          have hKL := splitFirst_snd_suffix_mono m hm W1 W2 hW t [c] [c2] t2 (by simp)
            (by simpa using hsub) ht2
          have hlen1 : (splitFirst m W1 [c] t).2.length ≤ n := by
            have h1 := (splitFirst_snd_suffix m W1 t [c]).length_le
            have h2 : t.length ≤ n := by
              simpa using hn
            omega
          have := ih (splitFirst m W1 [c] t).2 (splitFirst m W2 [c2] t2).2 hlen1 hKL
          omega

/-- Claim C4 (amended): when the measure is monotone non-decreasing under
prepending as well (true of additive advance-width metrics, but not implied
by monotonicity under appending alone), the number of lines returned by
breakTextIntoLines is monotonic non-increasing in maxWidth. -/
theorem breakTextIntoLines_count_antitone (text : List Char) (font : List Char → ℚ → ℚ)
    (fontSize maxWidth1 maxWidth2 : ℚ)
    (hmono : ∀ u v, font v fontSize ≤ font (u ++ v) fontSize)
    (hW : maxWidth1 ≤ maxWidth2) :
    (breakTextIntoLines text font fontSize maxWidth2).length
      ≤ (breakTextIntoLines text font fontSize maxWidth1).length := by
  rw [breakTextIntoLines_eq_breakAux, breakTextIntoLines_eq_breakAux]
  exact breakAux_length_antitone (fun t => font t fontSize) hmono maxWidth1 maxWidth2 hW
    text.length text text le_rfl (List.suffix_refl text)

/-- Witness for the amended claim C4 at a concrete input. -/
theorem breakTextIntoLines_count_antitone_witness :
    (breakTextIntoLines ['a', 'b'] lenFont 12 2).length
      ≤ (breakTextIntoLines ['a', 'b'] lenFont 12 1).length :=
  breakTextIntoLines_count_antitone ['a', 'b'] lenFont 12 1 2
    (fun u v => by
      simp only [lenFont, List.length_append]
      exact_mod_cast Nat.le_add_left v.length u.length)
    (by norm_num)

/-- Raw width table for the claim C4 counterexample. -/
def rawCount : List Char → ℚ
  | ['a'] => 5
  | ['a', 'b'] => 15
  | ['a', 'b', 'c'] => 25
  | ['a', 'b', 'c', 'd'] => 25
  | ['b'] => 1
  | ['b', 'c'] => 8
  | ['b', 'c', 'd'] => 9
  | ['c'] => 2
  | ['c', 'd'] => 30
  | ['d'] => 3
  | _ => 0

/-- Counterexample measure for claim C4: deterministic and monotone
non-decreasing under appending. -/
def cexCountFont (s : List Char) (_fs : ℚ) : ℚ := initsMaxMeasure rawCount s

/-- Claim C4 counterexample: cexCountFont is deterministic and monotone
non-decreasing under appending (the stated measure precondition), yet
raising maxWidth from 10 to 20 on the input a-b-c-d raises the line count
from 2 to 3: the line count is not monotonic non-increasing in maxWidth, so
the claim as stated is false. -/
theorem breakTextIntoLines_count_cex :
    (∀ (u v : List Char) (fs : ℚ), cexCountFont u fs ≤ cexCountFont (u ++ v) fs)
      ∧ (10 : ℚ) ≤ 20
      ∧ (breakTextIntoLines ['a', 'b', 'c', 'd'] cexCountFont 12 10).length
          < (breakTextIntoLines ['a', 'b', 'c', 'd'] cexCountFont 12 20).length := by
  exact ⟨fun u v fs => initsMaxMeasure_mono rawCount u v, by norm_num, by decide⟩
